import Mathlib

/-!
Verification of the bridge_score pairing and scoring engine.

Shallow embedding of the core functions of scoring.py, movements.py and
api_routes.py, together with theorems settling the spec claims about them.
Python ints are modelled as Int or Nat, floats as Real (for the victory
point curve) or Rat (for standings), raised exceptions as Option/none.
-/

set_option maxHeartbeats 1000000

namespace BridgeSpec

/-- Denomination of a bridge contract, the regex group matching NT or one of
    C D H S in scoring.calculate_bridge_score. -/
inductive Suit
  | C | D | H | S | NT
deriving DecidableEq

/-- Helper for whitespace splitting; the accumulator holds the current word
    reversed.  Models Python str.split() with no separator argument:
    split on runs of whitespace, dropping empty pieces (which also makes the
    preceding strip() a no-op). -/
def splitWsAux : List Char → List Char → List (List Char)
  | [], acc => if acc.isEmpty then [] else [acc.reverse]
  | c :: cs, acc =>
    if c.isWhitespace then
      if acc.isEmpty then splitWsAux cs [] else acc.reverse :: splitWsAux cs []
    else
      splitWsAux cs (c :: acc)

/-- Python result.strip().split() from scoring.calculate_bridge_score. -/
def pySplit (s : List Char) : List (List Char) := splitWsAux s []

/-- Value of a digit string, as Python int() computes it on digits. -/
def digitsToNat (ds : List Char) : ℕ :=
  ds.foldl (fun acc c => acc * 10 + (c.toNat - 48)) 0

/-- Models Python int(token) on a whitespace-free token: an optional sign
    followed by a nonempty run of digits; anything else raises ValueError,
    modelled as none. -/
def pyInt (s : List Char) : Option ℤ :=
  match s with
  | '-' :: ds => if ds ≠ [] ∧ ds.all Char.isDigit then some (-(digitsToNat ds : ℤ)) else none
  | '+' :: ds => if ds ≠ [] ∧ ds.all Char.isDigit then some ((digitsToNat ds : ℤ)) else none
  | ds => if ds ≠ [] ∧ ds.all Char.isDigit then some ((digitsToNat ds : ℤ)) else none

/-- Number of X characters taken by the greedy sub-pattern matching at most
    two X characters at the start of the remainder. -/
def countX (r : List Char) : ℕ := min (r.takeWhile (fun c => c = 'X')).length 2

/-- Models re.match of the contract pattern (digit group, then NT or one of
    C D H S, then up to two X) applied to the uppercased contract token.
    re.match anchors only at the start, so trailing characters after the
    matched prefix are ignored.  Returns (level, suit, number of X). -/
def matchContract (s : List Char) : Option (ℕ × Suit × ℕ) :=
  let digits := s.takeWhile Char.isDigit
  let rest := s.dropWhile Char.isDigit
  if digits.isEmpty then none
  else
    let level := digitsToNat digits
    match rest with
    | 'N' :: 'T' :: r2 => some (level, Suit.NT, countX r2)
    | 'C' :: r2 => some (level, Suit.C, countX r2)
    | 'D' :: r2 => some (level, Suit.D, countX r2)
    | 'H' :: r2 => some (level, Suit.H, countX r2)
    | 'S' :: r2 => some (level, Suit.S, countX r2)
    | _ => none

/-- Python vulnerability.lower() in the list of v and vul. -/
def isVul (v : List Char) : Bool :=
  v.map Char.toLower == ['v'] || v.map Char.toLower == ['v', 'u', 'l']

/-- Score of a made contract: base score, game or partscore bonus, slam
    bonus, overtrick value and insult bonus, as in the made branch of
    scoring.calculate_bridge_score. -/
def madeScore (level : ℕ) (suit : Suit) (multiplier : ℤ) (vulnerable : Bool)
    (tricks : ℤ) : ℤ :=
  let base_score : ℤ :=
    (if suit = Suit.C ∨ suit = Suit.D then (level : ℤ) * 20
     else if suit = Suit.H ∨ suit = Suit.S then (level : ℤ) * 30
     else (level : ℤ) * 30 + 10) * multiplier
  let game_bonus : ℤ :=
    if 100 ≤ base_score then (if vulnerable then 500 else 300) else 50
  let insult_bonus : ℤ :=
    if multiplier = 2 then 50 else if multiplier = 4 then 100 else 0
  let slam_bonus : ℤ :=
    if level = 6 then (if vulnerable then 750 else 500)
    else if level = 7 then (if vulnerable then 1500 else 1000)
    else 0
  let overtrick_value : ℤ :=
    if multiplier = 2 then (if vulnerable then 200 else 100)
    else if multiplier = 4 then (if vulnerable then 400 else 200)
    else if suit = Suit.C ∨ suit = Suit.D then 20
    else 30
  let overtricks : ℤ := tricks - level
  base_score + game_bonus + slam_bonus + overtrick_value * overtricks + insult_bonus

/-- Penalty of a failed contract, as in the failed branch of
    scoring.calculate_bridge_score. -/
def undertrickPenalty (multiplier : ℤ) (vulnerable : Bool) (undertricks : ℤ) : ℤ :=
  if multiplier = 1 then
    undertricks * (if vulnerable then 100 else 50)
  else
    let base : ℤ :=
      if vulnerable = false then
        if undertricks = 1 then 100
        else if undertricks = 2 then 300
        else 500 + (undertricks - 3) * 300
      else
        if undertricks = 1 then 200
        else if undertricks = 2 then 500
        else 800 + (undertricks - 3) * 300
    if multiplier = 4 then base * 2 else base

/-- Shallow embedding of scoring.calculate_bridge_score.  The input is the
    full result string as a char list; every raising path (wrong token
    count, failed regex, int() ValueError, failed assert, including the
    dead overtricks assert of the made branch) is none. -/
def calculate_bridge_score (result : List Char) : Option ℤ :=
  match pySplit result with
  | [contract_str, vulnerability, tricks_str] =>
    match matchContract (contract_str.map Char.toUpper) with
    | none => none
    | some (level, suit, nx) =>
      let multiplier : ℤ := if nx = 1 then 2 else if nx = 2 then 4 else 1
      match pyInt tricks_str with
      | none => none
      | some tricks =>
        if ¬((level : ℤ) ≤ tricks ∨ tricks ≤ -1) then none
        else
          let vulnerable := isVul vulnerability
          if (level : ℤ) ≤ tricks then
            if tricks - (level : ℤ) < 0 then none
            else some (madeScore level suit multiplier vulnerable tricks)
          else
            some (-undertrickPenalty multiplier vulnerable |tricks|)
  | _ => none

/-- Band value of an absolute score difference, mirroring the if and elif
    chain of scoring.calculate_imp; the final else branch (commented 4000
    plus in the source) also catches every gap between the listed bands. -/
def impBand (diff : ℤ) : ℤ :=
  if diff < 20 then 0
  else if 20 ≤ diff ∧ diff ≤ 40 then 1
  else if 50 ≤ diff ∧ diff ≤ 80 then 2
  else if 90 ≤ diff ∧ diff ≤ 120 then 3
  else if 130 ≤ diff ∧ diff ≤ 160 then 4
  else if 170 ≤ diff ∧ diff ≤ 210 then 5
  else if 220 ≤ diff ∧ diff ≤ 260 then 6
  else if 270 ≤ diff ∧ diff ≤ 310 then 7
  else if 320 ≤ diff ∧ diff ≤ 360 then 8
  else if 370 ≤ diff ∧ diff ≤ 420 then 9
  else if 430 ≤ diff ∧ diff ≤ 490 then 10
  else if 500 ≤ diff ∧ diff ≤ 590 then 11
  else if 600 ≤ diff ∧ diff ≤ 740 then 12
  else if 750 ≤ diff ∧ diff ≤ 890 then 13
  else if 900 ≤ diff ∧ diff ≤ 1090 then 14
  else if 1100 ≤ diff ∧ diff ≤ 1290 then 15
  else if 1300 ≤ diff ∧ diff ≤ 1490 then 16
  else if 1500 ≤ diff ∧ diff ≤ 1740 then 17
  else if 1750 ≤ diff ∧ diff ≤ 1990 then 18
  else if 2000 ≤ diff ∧ diff ≤ 2240 then 19
  else if 2250 ≤ diff ∧ diff ≤ 2490 then 20
  else if 2500 ≤ diff ∧ diff ≤ 2990 then 21
  else if 3000 ≤ diff ∧ diff ≤ 3490 then 22
  else if 3500 ≤ diff ∧ diff ≤ 3990 then 23
  else 24

/-- Shallow embedding of scoring.calculate_imp: band value of the absolute
    difference, signed with np.sign of the difference. -/
def calculate_imp (a b : ℤ) : ℤ := impBand |a - b| * (a - b).sign

/-- Shallow embedding of scoring.calculate_vp over the reals (Python floats
    idealised as real numbers).  tau is the golden ratio minus one; the raw
    margin is rescaled by the board count and pushed through the power curve
    exactly as the source writes it. -/
noncomputable def calculate_vp (a b : ℤ) (num_boards : ℕ) : ℝ × ℝ :=
  let trophy0 : ℝ := |(a : ℝ) - (b : ℝ)|
  let tau : ℝ := (1 + Real.sqrt 5) / 2 - 1
  let trophy1 : ℝ := 3 * trophy0 / (15 * Real.sqrt (num_boards : ℝ))
  let trophy : ℝ := min 10 (10 * (tau ^ trophy1 / tau ^ (3 : ℝ)))
  if a > b then (10 + trophy, 10 - trophy) else (10 - trophy, 10 + trophy)

/-- Abbreviation for the golden ratio minus one, the decay base used by
    calculate_vp. -/
noncomputable def vpTau : ℝ := (1 + Real.sqrt 5) / 2 - 1

theorem vpTau_pos : 0 < vpTau := by
  have h5 : (0 : ℝ) ≤ 5 := by norm_num
  have hs : Real.sqrt 5 * Real.sqrt 5 = 5 := Real.mul_self_sqrt h5
  have hnn : 0 ≤ Real.sqrt 5 := Real.sqrt_nonneg 5
  have h1 : 1 < Real.sqrt 5 := by nlinarith
  unfold vpTau
  linarith

theorem vpTau_lt_one : vpTau < 1 := by
  have h5 : (0 : ℝ) ≤ 5 := by norm_num
  have hs : Real.sqrt 5 * Real.sqrt 5 = 5 := Real.mul_self_sqrt h5
  have hnn : 0 ≤ Real.sqrt 5 := Real.sqrt_nonneg 5
  have h3 : Real.sqrt 5 < 3 := by nlinarith
  unfold vpTau
  linarith

/-- On zero margin the scaled trophy argument is zero, the curve value is
    ten over tau cubed which exceeds ten, the min caps it at ten, and the
    non-strict branch hands the full twenty points to side b. -/
theorem calculate_vp_tie_eval : calculate_vp 0 0 1 = (0, 20) := by
  have htau0 : 0 < vpTau := vpTau_pos
  have htau1 : vpTau < 1 := vpTau_lt_one
  unfold calculate_vp
  dsimp only
  have h0 : |((0 : ℤ) : ℝ) - ((0 : ℤ) : ℝ)| = 0 := by norm_num
  rw [h0]
  have hsq1 : Real.sqrt ((1 : ℕ) : ℝ) = 1 := by
    norm_num
  rw [hsq1]
  have harg : (3 : ℝ) * 0 / (15 * 1) = 0 := by norm_num
  rw [harg]
  have hrpow0 : vpTau ^ (0 : ℝ) = 1 := Real.rpow_zero _
  have hrpow3 : vpTau ^ (3 : ℝ) = vpTau ^ (3 : ℕ) := by
    rw [show ((3 : ℝ) = ((3 : ℕ) : ℝ)) by norm_num, Real.rpow_natCast]
  have hcube_pos : 0 < vpTau ^ (3 : ℕ) := pow_pos htau0 3
  have hcube_lt : vpTau ^ (3 : ℕ) < 1 := pow_lt_one₀ (le_of_lt htau0) htau1 (by norm_num)
  have hge : (10 : ℝ) ≤ 10 * ((1 : ℝ) / vpTau ^ (3 : ℕ)) := by
    have : (1 : ℝ) ≤ 1 / vpTau ^ (3 : ℕ) := by
      rw [le_div_iff₀ hcube_pos]
      linarith
    linarith
  show (if (0 : ℤ) > 0 then _ else _) = ((0 : ℝ), (20 : ℝ))
  rw [if_neg (by omega)]
  have hmin : min (10 : ℝ)
      (10 * (((1 + Real.sqrt 5) / 2 - 1) ^ (0 : ℝ) / ((1 + Real.sqrt 5) / 2 - 1) ^ (3 : ℝ))) = 10 := by
    have : ((1 + Real.sqrt 5) / 2 - 1 : ℝ) = vpTau := rfl
    rw [this, hrpow0, hrpow3]
    exact min_eq_left hge
  rw [hmin]
  norm_num

/-- Helper: value of the capped trophy term for margin d over one board,
    when the scaled argument 3 d / 15 is at least three: the min does not
    bind and the value is ten times tau to the scaled argument minus 3. -/
theorem vp_winner_component (a : ℤ) (ha : 0 < a) (k : ℕ)
    (hk : 3 * |((a : ℤ) : ℝ)| / 15 = (k : ℝ)) (hk3 : 3 ≤ k) :
    (calculate_vp a 0 1).1 = 10 + 10 * vpTau ^ (k - 3) := by
  have htau0 : 0 < vpTau := vpTau_pos
  have htau1 : vpTau < 1 := vpTau_lt_one
  unfold calculate_vp
  dsimp only
  rw [if_pos (by omega : a > 0)]
  have hsq1 : Real.sqrt ((1 : ℕ) : ℝ) = 1 := by norm_num
  have hbase : ((1 + Real.sqrt 5) / 2 - 1 : ℝ) = vpTau := rfl
  have harg : (3 : ℝ) * |((a : ℤ) : ℝ) - ((0 : ℤ) : ℝ)| / (15 * Real.sqrt ((1 : ℕ) : ℝ))
      = (k : ℝ) := by
    rw [hsq1]
    simpa using hk
  simp only [hbase, harg]
  have hrpowk : vpTau ^ ((k : ℝ)) = vpTau ^ k := Real.rpow_natCast _ k
  have hrpow3 : vpTau ^ (3 : ℝ) = vpTau ^ (3 : ℕ) := by
    rw [show ((3 : ℝ) = ((3 : ℕ) : ℝ)) by norm_num, Real.rpow_natCast]
  rw [hrpowk, hrpow3]
  have hsplit : vpTau ^ k = vpTau ^ (k - 3) * vpTau ^ (3 : ℕ) := by
    rw [← pow_add]
    congr 1
    omega
  have hcube_pos : 0 < vpTau ^ (3 : ℕ) := pow_pos htau0 3
  have hdiv : vpTau ^ k / vpTau ^ (3 : ℕ) = vpTau ^ (k - 3) := by
    rw [hsplit, mul_div_assoc, div_self (ne_of_gt hcube_pos), mul_one]
  rw [hdiv]
  have hle1 : vpTau ^ (k - 3) ≤ 1 := pow_le_one₀ (le_of_lt htau0) (le_of_lt htau1)
  have hmin : min (10 : ℝ) (10 * vpTau ^ (k - 3)) = 10 * vpTau ^ (k - 3) := by
    apply min_eq_right
    linarith
  rw [hmin]

/-- C2 failing input: over one board the winning side of a 100 IMP margin
    receives strictly fewer victory points than the winning side of a 20
    IMP margin, so the winner curve is decreasing, not nondecreasing. -/
theorem calculate_vp_decreasing_eval :
    (calculate_vp 100 0 1).1 < (calculate_vp 20 0 1).1 := by
  have h100 : (calculate_vp 100 0 1).1 = 10 + 10 * vpTau ^ (20 - 3 : ℕ) := by
    apply vp_winner_component 100 (by norm_num) 20
    · norm_num
    · norm_num
  have h20 : (calculate_vp 20 0 1).1 = 10 + 10 * vpTau ^ (4 - 3 : ℕ) := by
    apply vp_winner_component 20 (by norm_num) 4
    · norm_num
    · norm_num
  rw [h100, h20]
  have htau0 : 0 < vpTau := vpTau_pos
  have htau1 : vpTau < 1 := vpTau_lt_one
  have : vpTau ^ (17 : ℕ) < vpTau ^ (1 : ℕ) :=
    pow_lt_pow_right_of_lt_one₀ htau0 htau1 (by norm_num)
  simp only [show (20 - 3 : ℕ) = 17 from rfl, show (4 - 3 : ℕ) = 1 from rfl]
  linarith

/-- C3: the difference 45 sits in the gap between the band ending at 40 and
    the band starting at 50, so the closing else branch of calculate_imp,
    documented in the source as the 4000 plus case, fires and returns the
    maximal 24 IMP although the difference is far below 4000. -/
theorem calculate_imp_gap_eval : calculate_imp 45 0 = 24 ∧ (45 : ℤ) < 4000 := by
  decide

/-- C4: calculate_bridge_score reproduces the nine reference scores listed
    in the spec, fed through the same textual interface the source parses. -/
theorem score_contract_reference_values :
    calculate_bridge_score (("3NT n 3").toList) = some 400 ∧
    calculate_bridge_score (("4S v 4").toList) = some 620 ∧
    calculate_bridge_score (("6NT v 6").toList) = some 1440 ∧
    calculate_bridge_score (("7NT v 7").toList) = some 2220 ∧
    calculate_bridge_score (("4H v -1").toList) = some (-100) ∧
    calculate_bridge_score (("3NTX n 3").toList) = some 550 ∧
    calculate_bridge_score (("3NTXX n 3").toList) = some 800 ∧
    calculate_bridge_score (("3NTX n -1").toList) = some (-100) ∧
    calculate_bridge_score (("3NTXX n -1").toList) = some (-200) := by
  decide

/-- C5 counterexample: a contract whose level 8 is outside 1 to 7 is scored
    (540) instead of failing, and a contract with three X characters is
    scored as redoubled (880) because re.match ignores trailing input. -/
theorem score_contract_accepts_malformed :
    calculate_bridge_score (("8H n 8").toList) = some 540 ∧
    calculate_bridge_score (("4HXXX n 4").toList) = some 880 := by
  decide

/-- Scanning a whitespace-free word pushes it, reversed, onto the
    accumulator. -/
theorem splitWsAux_word (w : List Char) (rest acc : List Char)
    (hw : ∀ ch ∈ w, ch.isWhitespace = false) :
    splitWsAux (w ++ rest) acc = splitWsAux rest (w.reverse ++ acc) := by
  induction w generalizing acc with
  | nil => simp
  | cons ch w ih =>
    have hch : ch.isWhitespace = false := hw ch (by simp)
    simp only [List.cons_append, splitWsAux, hch, Bool.false_eq_true, if_false]
    have h2 := ih (ch :: acc) (fun c hc => hw c (by simp [hc]))
    simpa using h2

/-- Scanning a space with a nonempty accumulator emits the accumulated word
    and restarts. -/
theorem splitWsAux_space (rest : List Char) (acc : List Char) (h : acc ≠ []) :
    splitWsAux (' ' :: rest) acc = acc.reverse :: splitWsAux rest [] := by
  cases acc with
  | nil => exact absurd rfl h
  | cons a as => simp [splitWsAux]

/-- The splitter recovers exactly the three tokens from a three-token
    input, provided each token is nonempty and whitespace free. -/
theorem pySplit_three (c v t : List Char) (hc : c ≠ []) (hv : v ≠ []) (ht : t ≠ [])
    (hwc : ∀ ch ∈ c, ch.isWhitespace = false)
    (hwv : ∀ ch ∈ v, ch.isWhitespace = false)
    (hwt : ∀ ch ∈ t, ch.isWhitespace = false) :
    pySplit (c ++ (' ' :: (v ++ (' ' :: t)))) = [c, v, t] := by
  have hlast : splitWsAux t [] = [t] := by
    have h1 := splitWsAux_word t [] [] hwt
    rw [List.append_nil, List.append_nil] at h1
    rw [h1]
    have h2 : t.reverse.isEmpty = false := by
      cases t with
      | nil => exact absurd rfl ht
      | cons a as => simp
    simp [splitWsAux, h2]
  unfold pySplit
  rw [splitWsAux_word c (' ' :: (v ++ ' ' :: t)) [] hwc, List.append_nil,
    splitWsAux_space _ _ (by simpa using hc), List.reverse_reverse,
    splitWsAux_word v (' ' :: t) [] hwv, List.append_nil,
    splitWsAux_space _ _ (by simpa using hv), List.reverse_reverse, hlast]

/-- Spec-side description of a bad three-token input, as amended: the
    contract token fails the parsing pattern, or the tricks token is not an
    integer, or the tricks value is neither at least the parsed level nor
    at most minus one.  Level range and trailing garbage are not checked. -/
def malformedTriple (c t : List Char) : Bool :=
  match matchContract (c.map Char.toUpper) with
  | none => true
  | some (level, _, _) =>
    match pyInt t with
    | none => true
    | some tricks => !(decide ((level : ℤ) ≤ tricks) || decide (tricks ≤ -1))

/-- C5 amended: on a well-shaped three-token input, calculate_bridge_score
    fails exactly when the contract token fails the regex pattern, the
    tricks token is not an integer, or the tricks value is inconsistent
    with the parsed level; in particular levels above 7 and trailing
    characters after the doubling group are not rejected. -/
theorem score_contract_error_iff (c v t : List Char) (hc : c ≠ []) (hv : v ≠ [])
    (ht : t ≠ [])
    (hwc : ∀ ch ∈ c, ch.isWhitespace = false)
    (hwv : ∀ ch ∈ v, ch.isWhitespace = false)
    (hwt : ∀ ch ∈ t, ch.isWhitespace = false) :
    calculate_bridge_score (c ++ (' ' :: (v ++ (' ' :: t)))) = none ↔
      malformedTriple c t = true := by
  unfold calculate_bridge_score
  rw [pySplit_three c v t hc hv ht hwc hwv hwt]
  unfold malformedTriple
  cases hm : matchContract (c.map Char.toUpper) with
  | none => simp [hm]
  | some lsn =>
    obtain ⟨level, suit, nx⟩ := lsn
    cases hp : pyInt t with
    | none => simp [hm, hp]
    | some tricks =>
      simp only [hm, hp]
      by_cases hok : ((level : ℤ) ≤ tricks ∨ tricks ≤ -1)
      · rcases hok with hle | hlow
        · simp [hle, not_lt.mpr hle]
        · rcases le_or_lt (level : ℤ) tricks with hle | hlt
          · simp [hle, not_lt.mpr hle]
          · simp [hlow, not_le.mpr hlt, hlt]
      · push_neg at hok
        simp [hok.1, hok.2, not_le.mpr hok.1, not_le.mpr hok.2]

/-- Witness for the amended C5 theorem at the concrete malformed input of
    contract 4Z, vulnerability n, tricks 0: the denomination Z fails the
    pattern and the score call errors. -/
theorem score_contract_error_iff_witness :
    calculate_bridge_score
      ((("4Z").toList) ++ (' ' :: ((("n").toList) ++ (' ' :: (("0").toList)))))
      = none :=
  (score_contract_error_iff (("4Z").toList) (("n").toList) (("0").toList)
    (by decide) (by decide) (by decide) (by decide) (by decide) (by decide)).mpr
    (by decide)

/-! ## Movement engine: round robin (movements.round_robin) -/

/-- One rotation step of the circle method, the Python line rebuilding teams
    as the head, the last element, then the middle slice.  A singleton list
    would give the head twice in Python; only lists of length at least two
    are ever rotated. -/
def rotateOnce : List ℕ → List ℕ
  | [] => []
  | [t] => [t, t]
  | t :: rest => t :: rest.getLastD 0 :: rest.dropLast

/-- Pairing emitted for one round: position i against position
    length - 1 - i for i below half, as in the inner loop of
    movements.round_robin. -/
def roundPairs (teams : List ℕ) : List (ℕ × ℕ) :=
  (List.range (teams.length / 2)).map
    (fun i => (teams.getD i 0, teams.getD (teams.length - 1 - i) 0))

/-- Round loop of movements.round_robin: emit the pairing of the current
    ordering, then rotate. -/
def rrAux : ℕ → List ℕ → List (List (ℕ × ℕ))
  | 0, _ => []
  | n + 1, teams => roundPairs teams :: rrAux n (rotateOnce teams)

/-- Shallow embedding of movements.round_robin.  A roster below two teams
    raises ValueError, modelled as none; an odd roster is padded with the
    bye team, which defaults to num_teams + 1. -/
def round_robin (num_teams : ℕ) (bye_team : Option ℕ) : Option (List (List (ℕ × ℕ))) :=
  if num_teams < 2 then none
  else
    let teams0 := List.range' 1 num_teams
    let teams :=
      if num_teams % 2 = 1 then teams0 ++ [bye_team.getD (num_teams + 1)] else teams0
    some (rrAux (teams.length - 1) teams)

theorem rotateOnce_cons_concat (x y : ℕ) (ys : List ℕ) (a : ℕ) :
    rotateOnce (x :: ((y :: ys) ++ [a])) = x :: a :: y :: ys := by
  show x :: ((y :: ys) ++ [a]).getLastD 0 :: ((y :: ys) ++ [a]).dropLast = _
  rw [List.getLastD_concat, List.dropLast_concat]

/-- A rotation step on a list with head fixed is a right rotation of the
    tail: the Python slice assembly equals List.rotate of the tail by its
    length minus one. -/
theorem rotateOnce_cons (x : ℕ) (l : List ℕ) (hl : l ≠ []) :
    rotateOnce (x :: l) = x :: l.rotate (l.length - 1) := by
  rcases List.eq_nil_or_concat l with rfl | ⟨ys, a, rfl⟩
  · exact absurd rfl hl
  · rw [List.concat_eq_append]
    have h1 : (ys ++ [a]).length - 1 = ys.length := by simp
    rw [h1, List.rotate_eq_drop_append_take (by simp), List.drop_left, List.take_left]
    cases ys with
    | nil => rfl
    | cons y ys =>
      rw [rotateOnce_cons_concat]
      simp

/-- Iterating the rotation accumulates right rotations of the tail. -/
theorem iterate_rotateOnce (x : ℕ) (l : List ℕ) (hl : l ≠ []) (r : ℕ) :
    rotateOnce^[r] (x :: l) = x :: l.rotate (r * (l.length - 1)) := by
  induction r with
  | zero => simp
  | succ r ih =>
    rw [Function.iterate_succ_apply', ih,
      rotateOnce_cons x _ (by simpa [List.rotate_eq_nil_iff] using hl),
      List.length_rotate, List.rotate_rotate]
    congr 2
    ring

/-- The schedule loop lists the pairings of the successively rotated
    states. -/
theorem rrAux_eq_map_range (n : ℕ) (teams : List ℕ) :
    rrAux n teams = (List.range n).map (fun r => roundPairs (rotateOnce^[r] teams)) := by
  induction n generalizing teams with
  | zero => rfl
  | succ n ih =>
    rw [rrAux, ih (rotateOnce teams), List.range_succ_eq_map, List.map_cons]
    congr 1
    rw [List.map_map]
    apply List.map_congr_left
    intro r _
    simp [Function.iterate_succ_apply]

/-- Team seated at position j of the circle after r rotations on a padded
    even roster of m + 1 teams: position 0 holds the fixed team 1, position
    j holds team 2 plus the residue of j - 1 + r (m - 1) mod m. -/
def teamAt (m r j : ℕ) : ℕ :=
  if j = 0 then 1 else 2 + (j - 1 + r * (m - 1)) % m

theorem state_getD (N r j : ℕ) (h2 : 2 ≤ N) (hj : j < N) :
    (1 :: (List.range' 2 (N - 1)).rotate (r * (N - 2))).getD j 0 =
      teamAt (N - 1) r j := by
  unfold teamAt
  cases j with
  | zero => rfl
  | succ j =>
    rw [if_neg (by omega)]
    have hlen : ((List.range' 2 (N - 1)).rotate (r * (N - 2))).length = N - 1 := by
      simp
    rw [List.getD_cons_succ, List.getD_eq_getElem _ _ (by omega),
      List.getElem_rotate, List.getElem_range']
    have hlen2 : (List.range' 2 (N - 1)).length = N - 1 := by simp
    rw [hlen2]
    have h1 : N - 1 - 1 = N - 2 := by omega
    have hj1 : j + 1 - 1 = j := rfl
    rw [h1, hj1]
    omega

/-- Closed form of the pairing of round r on the padded even roster. -/
theorem roundPairs_state (N r : ℕ) (h2 : 2 ≤ N) :
    roundPairs (1 :: (List.range' 2 (N - 1)).rotate (r * (N - 2))) =
      (List.range (N / 2)).map
        (fun i => (teamAt (N - 1) r i, teamAt (N - 1) r (N - 1 - i))) := by
  unfold roundPairs
  have hlen : (1 :: (List.range' 2 (N - 1)).rotate (r * (N - 2))).length = N := by
    simp
    omega
  rw [hlen]
  apply List.map_congr_left
  intro i hi
  have hi2 : i < N / 2 := by simpa using hi
  rw [state_getD N r i h2 (by omega), state_getD N r (N - 1 - i) h2 (by omega)]

/-- Closed form of the whole even round robin schedule. -/
theorem rrAux_closed (N : ℕ) (h2 : 2 ≤ N) :
    rrAux (N - 1) (List.range' 1 N) =
      (List.range (N - 1)).map (fun r =>
        (List.range (N / 2)).map
          (fun i => (teamAt (N - 1) r i, teamAt (N - 1) r (N - 1 - i)))) := by
  have hsplit : List.range' 1 N = 1 :: List.range' 2 (N - 1) := by
    cases N with
    | zero => omega
    | succ n =>
      rw [List.range'_succ]
      simp
  rw [hsplit, rrAux_eq_map_range]
  apply List.map_congr_left
  intro r _
  have htail : (List.range' 2 (N - 1)) ≠ [] := by
    have : (List.range' 2 (N - 1)).length = N - 1 := by simp
    intro hnil
    rw [hnil] at this
    simp at this
    omega
  rw [iterate_rotateOnce 1 _ htail r]
  have hlen : (List.range' 2 (N - 1)).length - 1 = N - 2 := by
    rw [List.length_range']
    omega
  rw [hlen, roundPairs_state N r h2]

theorem countP_range_eq_of_unique (n k : ℕ) (hk : k < n) (p : ℕ → Bool)
    (hp : ∀ i, i < n → (p i = true ↔ i = k)) :
    (List.range n).countP p = 1 := by
  induction n with
  | zero => omega
  | succ n ih =>
    rw [List.range_succ, List.countP_append]
    rcases Nat.lt_or_ge k n with h | h
    · rw [ih h (fun i hi => hp i (by omega))]
      have hfalse : p n = false := by
        rcases Bool.eq_false_or_eq_true (p n) with ht | hf
        · exact absurd ((hp n (by omega)).mp ht) (by omega)
        · exact hf
      simp [List.countP_cons, hfalse]
    · have hkn : k = n := by omega
      subst hkn
      have h0 : (List.range k).countP p = 0 :=
        List.countP_eq_zero.mpr (by
          intro x hx hpx
          have hxk : x < k := List.mem_range.mp hx
          exact absurd ((hp x (by omega)).mp hpx) (by omega))
      have ht : p k = true := (hp k (by omega)).mpr rfl
      rw [h0]
      simp [List.countP_cons, ht]

theorem countP_range_eq_zero_of_none (n : ℕ) (p : ℕ → Bool)
    (hp : ∀ i, i < n → p i = false) :
    (List.range n).countP p = 0 :=
  List.countP_eq_zero.mpr (by
    intro x hx hpx
    rw [hp x (List.mem_range.mp hx)] at hpx
    exact absurd hpx (by simp))

theorem sum_map_range_eq_one (m k : ℕ) (hk : k < m) (f : ℕ → ℕ)
    (hf : ∀ r, r < m → f r = if r = k then 1 else 0) :
    ((List.range m).map f).sum = 1 := by
  induction m with
  | zero => omega
  | succ m ih =>
    rw [List.range_succ, List.map_append, List.sum_append]
    rcases Nat.lt_or_ge k m with h | h
    · rw [ih h (fun r hr => hf r (by omega))]
      have hz : f m = 0 := by
        rw [hf m (by omega), if_neg (by omega)]
      simp [hz]
    · have hkm : k = m := by omega
      subst hkm
      have h0 : ((List.range k).map f).sum = 0 := by
        apply List.sum_eq_zero
        intro x hx
        obtain ⟨r, hr, rfl⟩ := List.mem_map.mp hx
        have hrk : r < k := List.mem_range.mp hr
        rw [hf r (by omega), if_neg (by omega)]
      rw [h0]
      simp [hf k (by omega)]

/-! Modular arithmetic helpers for the circle method, phrased over ZMod. -/

theorem natmod_transfer (m x γ : ℕ) (hm : m ≠ 0) (hγ : γ < m) :
    x % m = γ ↔ ((x : ZMod m) = (γ : ZMod m)) := by
  rw [ZMod.natCast_eq_natCast_iff]
  have h1 : (x ≡ γ [MOD m]) ↔ x % m = γ % m := Iff.rfl
  rw [h1, Nat.mod_eq_of_lt hγ]

theorem cast_sub_one (m : ℕ) (hm : 1 ≤ m) : (((m - 1 : ℕ)) : ZMod m) = -1 := by
  rw [Nat.cast_sub hm, ZMod.natCast_self]
  simp

theorem cast_mul_m1 (m r : ℕ) (hm : 1 ≤ m) :
    ((r * (m - 1) : ℕ) : ZMod m) = -(r : ZMod m) := by
  rw [Nat.cast_mul, cast_sub_one m hm]
  ring

theorem cast_inj_lt (m x y : ℕ) (hx : x < m) (hy : y < m)
    (h : (x : ZMod m) = (y : ZMod m)) : x = y := by
  haveI : NeZero m := ⟨by omega⟩
  have h2 := congrArg ZMod.val h
  rwa [ZMod.val_cast_of_lt hx, ZMod.val_cast_of_lt hy] at h2

theorem two_unit (m : ℕ) (hodd : m % 2 = 1) : IsUnit (2 : ZMod m) := by
  have hcop : Nat.Coprime 2 m := Nat.coprime_two_left.mpr (Nat.odd_iff.mpr hodd)
  refine ⟨ZMod.unitOfCoprime 2 hcop, ?_⟩
  rw [ZMod.coe_unitOfCoprime]
  norm_num

theorem two_cancel (m : ℕ) (hodd : m % 2 = 1) {a b : ZMod m}
    (h : 2 * a = 2 * b) : a = b :=
  (two_unit m hodd).mul_left_cancel h

theorem teamAt_zero (m r : ℕ) : teamAt m r 0 = 1 := rfl

theorem teamAt_ge_two (m r j : ℕ) (hj : j ≠ 0) : 2 ≤ teamAt m r j := by
  unfold teamAt
  rw [if_neg hj]
  omega

/-- Equality of an interior circle position with a team value, transferred
    to a linear equation over ZMod m. -/
theorem teamAt_cast_iff (m r j c : ℕ) (hm1 : 1 ≤ m) (hj1 : 1 ≤ j)
    (hc2 : 2 ≤ c) (hγ : c - 2 < m) :
    teamAt m r j = c ↔
      ((j : ZMod m) - 1 - (r : ZMod m) = ((c - 2 : ℕ) : ZMod m)) := by
  unfold teamAt
  rw [if_neg (by omega)]
  have hstep : 2 + (j - 1 + r * (m - 1)) % m = c ↔
      (j - 1 + r * (m - 1)) % m = c - 2 := by
    omega
  rw [hstep, natmod_transfer m _ _ (by omega) hγ]
  have hcast : ((j - 1 + r * (m - 1) : ℕ) : ZMod m) =
      (j : ZMod m) - 1 - (r : ZMod m) := by
    rw [Nat.cast_add, Nat.cast_sub hj1, cast_mul_m1 m r hm1]
    push_cast
    ring
  rw [hcast]

theorem lin_solve_iff (m : ℕ) (hmodd : m % 2 = 1) (x y A B : ZMod m) :
    (x - 1 - y = A ∧ -x - 1 - y = B) ↔ (2 * x = A - B ∧ 2 * y = -2 - A - B) := by
  constructor
  · rintro ⟨h1, h2⟩
    constructor
    · linear_combination h1 - h2
    · linear_combination -h1 - h2
  · rintro ⟨g1, g2⟩
    constructor
    · apply two_cancel m hmodd
      linear_combination g1 - g2
    · apply two_cancel m hmodd
      linear_combination -g1 - g2

/-- In an even round robin, the slot where the pair of the fixed team 1 and
    another team b sits is unique: slot 0 of the round whose rotation puts
    b at the last position. -/
theorem slot_unique_one (N b : ℕ) (h2 : 2 ≤ N) (he : N % 2 = 0)
    (hb2 : 2 ≤ b) (hbN : b ≤ N) :
    ∃ r0 i0, r0 < N - 1 ∧ i0 < N / 2 ∧
      ∀ r i, r < N - 1 → i < N / 2 →
        (((teamAt (N-1) r i = 1 ∧ teamAt (N-1) r (N-1-i) = b) ∨
          (teamAt (N-1) r i = b ∧ teamAt (N-1) r (N-1-i) = 1))
          ↔ (r = r0 ∧ i = i0)) := by
  set m := N - 1 with hmdef
  have hm1 : 1 ≤ m := by omega
  haveI : NeZero m := ⟨by omega⟩
  have hβ : b - 2 < m := by omega
  set B : ZMod m := ((b - 2 : ℕ) : ZMod m) with hBdef
  set r0 := m - 1 - (b - 2) with hr0def
  have hr0cast : ((r0 : ℕ) : ZMod m) = -1 - B := by
    have e : r0 = m - (b - 1) := by omega
    rw [e, Nat.cast_sub (by omega), ZMod.natCast_self]
    have e2 : ((b - 1 : ℕ) : ZMod m) = B + 1 := by
      have e3 : b - 1 = (b - 2) + 1 := by omega
      rw [e3]
      push_cast
      ring
    rw [e2]
    ring
  have hpartner : ∀ r, r < m → (teamAt m r m = b ↔ r = r0) := by
    intro r hr
    rw [teamAt_cast_iff m r m b hm1 hm1 hb2 hβ, ZMod.natCast_self]
    constructor
    · intro h
      apply cast_inj_lt m r r0 hr (by omega)
      rw [hr0cast]
      linear_combination -h
    · intro h
      subst h
      rw [hr0cast]
      ring
  refine ⟨r0, 0, by omega, by omega, ?_⟩
  intro r i hr hi
  by_cases hizero : i = 0
  · subst hizero
    rw [Nat.sub_zero, teamAt_zero]
    constructor
    · rintro (⟨_, hp⟩ | ⟨h1, _⟩)
      · exact ⟨(hpartner r hr).mp hp, rfl⟩
      · omega
    · rintro ⟨hrr, _⟩
      exact Or.inl ⟨rfl, (hpartner r hr).mpr hrr⟩
  · constructor
    · rintro (⟨h1, _⟩ | ⟨_, hp⟩)
      · have := teamAt_ge_two m r i hizero
        omega
      · have := teamAt_ge_two m r (m - i) (by omega)
        omega
    · rintro ⟨_, h⟩
      exact absurd h hizero

/-- In an even round robin, the slot where a pair of two non fixed teams
    sits is unique, by inverting the two linear congruences of the rotation
    modulo the odd circle size. -/
theorem slot_unique_two (N a b : ℕ) (h2 : 2 ≤ N) (he : N % 2 = 0)
    (ha2 : 2 ≤ a) (haN : a ≤ N) (hb2 : 2 ≤ b) (hbN : b ≤ N) (hab : a ≠ b) :
    ∃ r0 i0, r0 < N - 1 ∧ i0 < N / 2 ∧
      ∀ r i, r < N - 1 → i < N / 2 →
        (((teamAt (N-1) r i = a ∧ teamAt (N-1) r (N-1-i) = b) ∨
          (teamAt (N-1) r i = b ∧ teamAt (N-1) r (N-1-i) = a))
          ↔ (r = r0 ∧ i = i0)) := by
  set m := N - 1 with hmdef
  have hm1 : 1 ≤ m := by omega
  have hmodd : m % 2 = 1 := by omega
  haveI : NeZero m := ⟨by omega⟩
  have hu : IsUnit (2 : ZMod m) := two_unit m hmodd
  have hα : a - 2 < m := by omega
  have hβ : b - 2 < m := by omega
  set A : ZMod m := ((a - 2 : ℕ) : ZMod m) with hAdef
  set B : ZMod m := ((b - 2 : ℕ) : ZMod m) with hBdef
  have hABne : A ≠ B := by
    intro h
    exact absurd (cast_inj_lt m _ _ hα hβ h) (by omega)
  have hinv : (2 : ZMod m) * (2 : ZMod m)⁻¹ = 1 := ZMod.mul_inv_of_unit _ hu
  set w : ZMod m := (A - B) * (2 : ZMod m)⁻¹ with hwdef
  have h2w : 2 * w = A - B := by
    calc (2 : ZMod m) * ((A - B) * (2 : ZMod m)⁻¹)
        = ((2 : ZMod m) * (2 : ZMod m)⁻¹) * (A - B) := by ring
    _ = A - B := by rw [hinv]; ring
  set z : ZMod m := (-2 - A - B) * (2 : ZMod m)⁻¹ with hzdef
  have h2z : 2 * z = -2 - A - B := by
    calc (2 : ZMod m) * ((-2 - A - B) * (2 : ZMod m)⁻¹)
        = ((2 : ZMod m) * (2 : ZMod m)⁻¹) * (-2 - A - B) := by ring
    _ = -2 - A - B := by rw [hinv]; ring
  set ip := w.val with hipdef
  set r0 := z.val with hr0def
  have hiplt : ip < m := ZMod.val_lt w
  have hr0lt : r0 < m := ZMod.val_lt z
  have hipcast : ((ip : ℕ) : ZMod m) = w := ZMod.natCast_rightInverse w
  have hr0cast : ((r0 : ℕ) : ZMod m) = z := ZMod.natCast_rightInverse z
  have hipne : ip ≠ 0 := by
    intro h0
    have hw0 : w = 0 := by rw [← hipcast, h0]; simp
    have hABeq : A = B := by
      have h00 : 2 * w = 0 := by rw [hw0]; ring
      rw [h2w] at h00
      linear_combination h00
    exact hABne hABeq
  have hhalf1 : 1 ≤ N / 2 := by omega
  have hm2h : m = 2 * (N / 2) - 1 := by omega
  set i0 := if ip < N / 2 then ip else m - ip with hi0def
  have hi01 : 1 ≤ i0 := by
    rw [hi0def]
    split
    · omega
    · omega
  have hi0lt : i0 < N / 2 := by
    rw [hi0def]
    split
    · assumption
    · omega
  refine ⟨r0, i0, by omega, hi0lt, ?_⟩
  intro r i hr hi
  by_cases hizero : i = 0
  · subst hizero
    rw [teamAt_zero]
    constructor
    · rintro (⟨h1, _⟩ | ⟨h1, _⟩) <;> omega
    · rintro ⟨_, h⟩
      omega
  · have hi1 : 1 ≤ i := by omega
    have hj1 : 1 ≤ m - i := by omega
    rw [teamAt_cast_iff m r i a hm1 hi1 ha2 hα,
        teamAt_cast_iff m r i b hm1 hi1 hb2 hβ,
        teamAt_cast_iff m r (m - i) b hm1 hj1 hb2 hβ,
        teamAt_cast_iff m r (m - i) a hm1 hj1 ha2 hα]
    have hcastmi : ((m - i : ℕ) : ZMod m) = -(i : ZMod m) := by
      rw [Nat.cast_sub (by omega), ZMod.natCast_self]
      ring
    rw [hcastmi, lin_solve_iff m hmodd (i : ZMod m) (r : ZMod m) A B,
        lin_solve_iff m hmodd (i : ZMod m) (r : ZMod m) B A]
    have hsym : (-2 - B - A : ZMod m) = -2 - A - B := by ring
    rw [hsym]
    have hreq : (2 * (r : ZMod m) = -2 - A - B) ↔ r = r0 := by
      rw [← h2z]
      constructor
      · intro h
        exact cast_inj_lt m r r0 (by omega) hr0lt
          (by rw [hr0cast]; exact two_cancel m hmodd h)
      · intro h
        subst h
        rw [hr0cast]
    have hieq1 : (2 * (i : ZMod m) = A - B) ↔ i = ip := by
      rw [← h2w]
      constructor
      · intro h
        exact cast_inj_lt m i ip (by omega) hiplt
          (by rw [hipcast]; exact two_cancel m hmodd h)
      · intro h
        subst h
        rw [hipcast]
    have hmi : ((m - ip : ℕ) : ZMod m) = -w := by
      rw [Nat.cast_sub (by omega), ZMod.natCast_self, hipcast]
      ring
    have hieq2 : (2 * (i : ZMod m) = B - A) ↔ i = m - ip := by
      constructor
      · intro h
        apply cast_inj_lt m i (m - ip) (by omega) (by omega)
        rw [hmi]
        apply two_cancel m hmodd
        rw [h]
        linear_combination h2w
      · intro h
        subst h
        rw [hmi]
        linear_combination -h2w
    rw [hieq1, hieq2, hreq]
    constructor
    · rintro (⟨hie, hre⟩ | ⟨hie, hre⟩)
      · refine ⟨hre, ?_⟩
        rw [hi0def, if_pos (by omega)]
        exact hie
      · refine ⟨hre, ?_⟩
        rw [hi0def, if_neg (by omega)]
        exact hie
    · rintro ⟨hre, hie⟩
      rw [hi0def] at hie
      by_cases hc : ip < N / 2
      · rw [if_pos hc] at hie
        exact Or.inl ⟨hie, hre⟩
      · rw [if_neg hc] at hie
        exact Or.inr ⟨hie, hre⟩

/-- Unique meeting slot of any unordered pair in the even round robin. -/
theorem slot_unique (N a b : ℕ) (h2 : 2 ≤ N) (he : N % 2 = 0)
    (ha1 : 1 ≤ a) (haN : a ≤ N) (hb1 : 1 ≤ b) (hbN : b ≤ N) (hab : a ≠ b) :
    ∃ r0 i0, r0 < N - 1 ∧ i0 < N / 2 ∧
      ∀ r i, r < N - 1 → i < N / 2 →
        (((teamAt (N-1) r i = a ∧ teamAt (N-1) r (N-1-i) = b) ∨
          (teamAt (N-1) r i = b ∧ teamAt (N-1) r (N-1-i) = a))
          ↔ (r = r0 ∧ i = i0)) := by
  rcases Nat.lt_or_ge a 2 with ha2 | ha2
  · have ha : a = 1 := by omega
    subst ha
    exact slot_unique_one N b h2 he (by omega) hbN
  · rcases Nat.lt_or_ge b 2 with hb2 | hb2
    · have hb : b = 1 := by omega
      subst hb
      obtain ⟨r0, i0, hh1, hh2, hh3⟩ := slot_unique_one N a h2 he (by omega) haN
      refine ⟨r0, i0, hh1, hh2, ?_⟩
      intro r i hr hi
      rw [← hh3 r i hr hi]
      tauto
    · exact slot_unique_two N a b h2 he ha2 haN hb2 hbN hab

/-- Boolean membership test for the unordered pair a b. -/
def pairMatch (a b : ℕ) (p : ℕ × ℕ) : Bool := decide (p = (a, b) ∨ p = (b, a))

theorem pairMatch_true_iff (a b x y : ℕ) :
    pairMatch a b (x, y) = true ↔ ((x = a ∧ y = b) ∨ (x = b ∧ y = a)) := by
  unfold pairMatch
  rw [decide_eq_true_iff]
  simp [Prod.ext_iff]

/-- C6: over the full even round robin schedule, every unordered pair of
    distinct competitors appears in exactly one pairing slot: exactly one
    round contains the pair and no round repeats it. -/
theorem round_robin_all_pairs_once (N a b : ℕ) (h2 : 2 ≤ N) (he : N % 2 = 0)
    (ha1 : 1 ≤ a) (haN : a ≤ N) (hb1 : 1 ≤ b) (hbN : b ≤ N) (hab : a ≠ b)
    (L : List (List (ℕ × ℕ))) (hL : round_robin N none = some L) :
    L.flatten.countP (pairMatch a b) = 1 := by
  have h0 : round_robin N none = some (rrAux (N - 1) (List.range' 1 N)) := by
    unfold round_robin
    rw [if_neg (by omega)]
    dsimp only
    rw [if_neg (by omega)]
    have hlen : (List.range' 1 N).length = N := by simp
    rw [hlen]
  rw [h0] at hL
  have hLval : L = rrAux (N - 1) (List.range' 1 N) := (Option.some.injEq _ _ ▸ hL).symm
  subst hLval
  rw [rrAux_closed N h2, List.countP_flatten, List.map_map]
  obtain ⟨r0, i0, hr0, hi0, hiff⟩ := slot_unique N a b h2 he ha1 haN hb1 hbN hab
  apply sum_map_range_eq_one (N - 1) r0 hr0
  intro r hr
  simp only [Function.comp_apply, List.countP_map]
  by_cases hrr : r = r0
  · subst hrr
    rw [if_pos rfl]
    apply countP_range_eq_of_unique (N / 2) i0 hi0
    intro i hi
    rw [Function.comp_apply, pairMatch_true_iff, hiff r i hr hi]
    constructor
    · rintro ⟨_, h⟩
      exact h
    · intro h
      exact ⟨rfl, h⟩
  · rw [if_neg hrr]
    apply countP_range_eq_zero_of_none
    intro i hi
    rcases Bool.eq_false_or_eq_true
        ((pairMatch a b ∘ fun i => (teamAt (N-1) r i, teamAt (N-1) r (N-1-i))) i)
      with ht | hf
    · exfalso
      rw [Function.comp_apply, pairMatch_true_iff, hiff r i hr hi] at ht
      exact hrr ht.1
    · exact hf

/-- Witness for C6 at four competitors and the pair 1 and 3. -/
theorem round_robin_all_pairs_once_witness :
    ((round_robin 4 none).getD []).flatten.countP (pairMatch 1 3) = 1 :=
  round_robin_all_pairs_once 4 1 3 (by norm_num) (by norm_num) (by norm_num)
    (by norm_num) (by norm_num) (by norm_num) (by norm_num) _ (by rfl)

theorem teamAt_ge_one (m r j : ℕ) : 1 ≤ teamAt m r j := by
  unfold teamAt
  split <;> omega

theorem teamAt_le (m r j : ℕ) (hm : 1 ≤ m) : teamAt m r j ≤ m + 1 := by
  unfold teamAt
  split
  · omega
  · have := Nat.mod_lt (j - 1 + r * (m - 1)) (by omega : 0 < m)
    omega

/-- In each round of the even circle, every team of the padded roster sits
    at exactly one position. -/
theorem teamAt_position_unique (N r t : ℕ) (h2 : 2 ≤ N) (ht1 : 1 ≤ t) (htN : t ≤ N) :
    ∃ j0, j0 < N ∧ ∀ j, j < N → (teamAt (N - 1) r j = t ↔ j = j0) := by
  set m := N - 1 with hmdef
  have hm1 : 1 ≤ m := by omega
  haveI : NeZero m := ⟨by omega⟩
  rcases Nat.lt_or_ge t 2 with ht2 | ht2
  · have ht : t = 1 := by omega
    subst ht
    refine ⟨0, by omega, ?_⟩
    intro j hj
    constructor
    · intro h
      by_contra hj0
      have := teamAt_ge_two m r j hj0
      omega
    · intro h
      subst h
      exact teamAt_zero m r
  · have hγ : t - 2 < m := by omega
    set T : ZMod m := ((t - 2 : ℕ) : ZMod m) with hTdef
    set u0 := (T + (r : ZMod m)).val with hu0def
    have hu0lt : u0 < m := ZMod.val_lt _
    have hu0cast : ((u0 : ℕ) : ZMod m) = T + (r : ZMod m) := ZMod.natCast_rightInverse _
    refine ⟨u0 + 1, by omega, ?_⟩
    intro j hj
    by_cases hj0 : j = 0
    · subst hj0
      rw [teamAt_zero]
      constructor
      · intro h
        omega
      · intro h
        omega
    · have hj1 : 1 ≤ j := by omega
      rw [teamAt_cast_iff m r j t hm1 hj1 ht2 hγ]
      constructor
      · intro h
        have hcast : ((j - 1 : ℕ) : ZMod m) = T + (r : ZMod m) := by
          rw [Nat.cast_sub hj1]
          linear_combination h
        have hju : j - 1 = u0 := by
          apply cast_inj_lt m (j - 1) u0 (by omega) hu0lt
          rw [hcast, hu0cast]
        omega
      · intro h
        subst h
        push_cast
        linear_combination hu0cast

/-- Closed form of round k of the circle method on an even roster of M. -/
def rrRound (M k : ℕ) : List (ℕ × ℕ) :=
  (List.range (M / 2)).map (fun i => (teamAt (M - 1) k i, teamAt (M - 1) k (M - 1 - i)))

/-- Boolean test that a pairing involves team t. -/
def containsN (t : ℕ) (p : ℕ × ℕ) : Bool := decide (p.1 = t ∨ p.2 = t)

/-- Every team of the even roster appears in exactly one pairing of each
    circle round. -/
theorem rrRound_count (N r t : ℕ) (h2 : 2 ≤ N) (he : N % 2 = 0)
    (ht1 : 1 ≤ t) (htN : t ≤ N) :
    (rrRound N r).countP (containsN t) = 1 := by
  obtain ⟨j0, hj0, hiff⟩ := teamAt_position_unique N r t h2 ht1 htN
  unfold rrRound
  rw [List.countP_map]
  have hm2h : N - 1 = 2 * (N / 2) - 1 := by omega
  set i0 := if j0 < N / 2 then j0 else N - 1 - j0 with hi0def
  have hi0lt : i0 < N / 2 := by
    rw [hi0def]
    split
    · assumption
    · omega
  apply countP_range_eq_of_unique (N / 2) i0 hi0lt
  intro i hi
  simp only [Function.comp_apply, containsN, decide_eq_true_iff]
  rw [hiff i (by omega), hiff (N - 1 - i) (by omega)]
  rw [hi0def]
  split
  · constructor
    · rintro (h | h)
      · exact h
      · omega
    · intro h
      exact Or.inl h
  · constructor
    · rintro (h | h)
      · omega
      · omega
    · intro h
      right
      omega

/-- No pairing of a circle round seats a team against itself. -/
theorem rrRound_no_self (N r : ℕ) (h2 : 2 ≤ N) (he : N % 2 = 0) :
    ∀ p ∈ rrRound N r, p.1 ≠ p.2 := by
  intro p hp
  unfold rrRound at hp
  obtain ⟨i, hi, rfl⟩ := List.mem_map.mp hp
  have hi2 : i < N / 2 := List.mem_range.mp hi
  intro h
  have ht1 : 1 ≤ teamAt (N - 1) r i := teamAt_ge_one _ _ _
  have htN : teamAt (N - 1) r i ≤ N := by
    have := teamAt_le (N - 1) r i (by omega)
    omega
  obtain ⟨j0, hj0, hiff⟩ := teamAt_position_unique N r (teamAt (N - 1) r i) h2 ht1 htN
  have h1 : i = j0 := (hiff i (by omega)).mp rfl
  have h2' : N - 1 - i = j0 := (hiff (N - 1 - i) (by omega)).mp h.symm
  omega

/-- Dropping the bye pairing from a circle round: the team that was facing
    the bye appears in no remaining pairing, every other team in exactly
    one. -/
theorem rrRound_filter_count (M k bye : ℕ) (h2 : 2 ≤ M) (he : M % 2 = 0)
    (hb1 : 1 ≤ bye) (hbN : bye ≤ M) :
    ∃ t0, 1 ≤ t0 ∧ t0 ≤ M ∧ t0 ≠ bye ∧
      ∀ t, 1 ≤ t → t ≤ M → t ≠ bye →
        ((rrRound M k).filter
            (fun p => decide (p.1 ≠ bye ∧ p.2 ≠ bye))).countP (containsN t)
          = if t = t0 then 0 else 1 := by
  obtain ⟨jb, hjb, hiffb⟩ := teamAt_position_unique M k bye h2 hb1 hbN
  have hm2h : M - 1 = 2 * (M / 2) - 1 := by omega
  set t0 := teamAt (M - 1) k (M - 1 - jb) with ht0def
  have hjbc : M - 1 - jb < M := by omega
  have hjbne : M - 1 - jb ≠ jb := by omega
  have ht0b : t0 ≠ bye := by
    intro h
    exact hjbne ((hiffb (M - 1 - jb) hjbc).mp h)
  have ht01 : 1 ≤ t0 := teamAt_ge_one _ _ _
  have ht0N : t0 ≤ M := by
    have := teamAt_le (M - 1) k (M - 1 - jb) (by omega)
    omega
  refine ⟨t0, ht01, ht0N, ht0b, ?_⟩
  intro t ht1 htN htb
  obtain ⟨jt, hjt, hifft⟩ := teamAt_position_unique M k t h2 ht1 htN
  have hjtb : jt ≠ jb := by
    intro h
    have h1 : teamAt (M - 1) k jt = t := (hifft jt hjt).mpr rfl
    have h2' : teamAt (M - 1) k jb = bye := (hiffb jb hjb).mpr rfl
    rw [h] at h1
    omega
  unfold rrRound
  rw [List.countP_filter, List.countP_map]
  by_cases hcase : t = t0
  · -- t is the sitter: its position is the complement of the bye position
    have hjt0 : jt = M - 1 - jb :=
      ((hifft (M - 1 - jb) hjbc).mp (ht0def.symm.trans hcase.symm)).symm
    rw [if_pos hcase]
    apply countP_range_eq_zero_of_none
    intro i hi
    rw [Function.comp_apply, Bool.eq_false_iff]
    intro hw
    simp only [Bool.and_eq_true, decide_eq_true_iff, containsN] at hw
    obtain ⟨hcont, hfree1, hfree2⟩ := hw
    rcases hcont with h | h
    · have hij : i = jt := (hifft i (by omega)).mp h
      apply hfree2
      apply (hiffb (M - 1 - i) (by omega)).mpr
      omega
    · have hij : M - 1 - i = jt := (hifft (M - 1 - i) (by omega)).mp h
      apply hfree1
      apply (hiffb i (by omega)).mpr
      omega
  · -- t plays: its slot survives the filter
    have hjtt0 : jt ≠ M - 1 - jb := by
      intro h
      have h1 : teamAt (M - 1) k jt = t := (hifft jt hjt).mpr rfl
      rw [h] at h1
      exact hcase (ht0def.trans h1).symm
    rw [if_neg hcase]
    set i0 := if jt < M / 2 then jt else M - 1 - jt with hi0def
    have hi0lt : i0 < M / 2 := by
      rw [hi0def]
      split
      · assumption
      · omega
    apply countP_range_eq_of_unique (M / 2) i0 hi0lt
    intro i hi
    rw [Function.comp_apply]
    simp only [Bool.and_eq_true, decide_eq_true_iff, containsN]
    constructor
    · rintro ⟨hcont, _, _⟩
      rcases hcont with h | h
      · have hij : i = jt := (hifft i (by omega)).mp h
        rw [hi0def]
        rw [if_pos (by omega)]
        exact hij
      · have hij : M - 1 - i = jt := (hifft (M - 1 - i) (by omega)).mp h
        rw [hi0def, if_neg (by omega)]
        omega
    · intro h
      subst h
      rw [hi0def]
      by_cases hc : jt < M / 2
      · rw [if_pos hc]
        refine ⟨Or.inl ((hifft jt (by omega)).mpr rfl), ?_, ?_⟩
        · intro hbad
          exact hjtb ((hiffb jt (by omega)).mp hbad)
        · intro hbad
          have hx : M - 1 - jt = jb := (hiffb (M - 1 - jt) (by omega)).mp hbad
          omega
      · rw [if_neg hc]
        have hcompl : M - 1 - (M - 1 - jt) = jt := by omega
        refine ⟨Or.inr (by rw [hcompl]; exact (hifft jt (by omega)).mpr rfl), ?_, ?_⟩
        · intro hbad
          have hx : M - 1 - jt = jb := (hiffb (M - 1 - jt) (by omega)).mp hbad
          omega
        · intro hbad
          rw [hcompl] at hbad
          exact hjtb ((hiffb jt (by omega)).mp hbad)

/-- On an odd roster the padded team list is literally the range up to the
    default bye id, so the raw schedule is the even circle on N + 1. -/
theorem round_robin_odd_raw (N : ℕ) (h2 : 2 ≤ N) (ho : N % 2 = 1) :
    round_robin N none = some (rrAux N (List.range' 1 (N + 1))) := by
  unfold round_robin
  rw [if_neg (by omega)]
  dsimp only
  rw [if_pos ho]
  have hcat : List.range' 1 N ++ [(none : Option ℕ).getD (N + 1)] =
      List.range' 1 (N + 1) := by
    rw [List.range'_concat]
    have he2 : 1 + 1 * N = N + 1 := by omega
    rw [he2]
    rfl
  rw [hcat]
  have hl : (List.range' 1 (N + 1)).length - 1 = N := by
    rw [List.length_range']
    omega
  rw [hl]

/-- Python list indexing, where a negative index wraps from the end and an
    out of range index raises IndexError. -/
def pyIndex {α : Type} (l : List α) (i : ℤ) : Option α :=
  if 0 ≤ i then l.get? i.toNat
  else if -(l.length : ℤ) ≤ i then l.get? (l.length - (-i).toNat)
  else none

/-- Shallow embedding of api_routes.handle_round_robin: build the full
    schedule, fail when the requested round is past the end, and for an odd
    entry count drop the pairs involving the implicit bye team. -/
def handle_round_robin (num_entries : ℕ) (new_round : ℤ) : Option (List (ℕ × ℕ)) :=
  match round_robin num_entries none with
  | none => none
  | some all_rounds =>
    if (all_rounds.length : ℤ) ≤ new_round - 1 then none
    else
      match pyIndex all_rounds (new_round - 1) with
      | none => none
      | some round_pairings =>
        if num_entries % 2 = 1 then
          some (round_pairings.filter
            (fun p => decide (p.1 ≠ num_entries + 1 ∧ p.2 ≠ num_entries + 1)))
        else some round_pairings

/-- Total round count of the schedule round_robin builds: the padded roster
    size minus one. -/
def rrNumRounds (num_teams : ℕ) : ℕ :=
  if num_teams % 2 = 1 then num_teams else num_teams - 1

theorem rrAux_length (n : ℕ) (teams : List ℕ) : (rrAux n teams).length = n := by
  induction n generalizing teams with
  | zero => rfl
  | succ n ih => simp [rrAux, ih]

/-- C9 amended, first half: round_robin on a roster of at least two produces
    a schedule of exactly rrNumRounds rounds, which is num_teams - 1 for an
    even roster but num_teams (not num_teams - 1) for an odd one, because
    the bye padding enlarges the circle. -/
theorem round_robin_length (N : ℕ) (hN : 2 ≤ N) :
    ∃ L, round_robin N none = some L ∧ L.length = rrNumRounds N := by
  unfold round_robin rrNumRounds
  rw [if_neg (by omega)]
  refine ⟨_, rfl, ?_⟩
  rw [rrAux_length]
  by_cases hodd : N % 2 = 1
  · rw [if_pos hodd, if_pos hodd]
    simp
  · rw [if_neg hodd, if_neg hodd]
    simp

/-- C9 amended, second half: requesting a 1-based round number past the end
    of the schedule errors, and every round number up to rrNumRounds
    succeeds. -/
theorem handle_round_robin_none_iff (N : ℕ) (r : ℤ) (hN : 2 ≤ N) (hr : 1 ≤ r) :
    handle_round_robin N r = none ↔ (rrNumRounds N : ℤ) < r := by
  obtain ⟨L, hL, hlen⟩ := round_robin_length N hN
  unfold handle_round_robin
  rw [hL]
  dsimp only
  by_cases hc : (L.length : ℤ) ≤ r - 1
  · rw [if_pos hc]
    simp only [true_iff]
    omega
  · rw [if_neg hc]
    have hlt : (r - 1).toNat < L.length := by omega
    have hidx : pyIndex L (r - 1) = some (L.get ⟨(r - 1).toNat, hlt⟩) := by
      unfold pyIndex
      rw [if_pos (by omega)]
      exact List.get?_eq_get hlt
    rw [hidx]
    constructor
    · intro h
      dsimp only at h
      by_cases hodd : N % 2 = 1
      · rw [if_pos hodd] at h
        exact absurd h (by simp)
      · rw [if_neg hodd] at h
        exact absurd h (by simp)
    · intro h
      omega

/-- C9 counterexample: an odd roster of three competitors yields three
    rounds, not two, and requesting round 3 (beyond the N - 1 = 2 the claim
    allows) succeeds instead of failing. -/
theorem round_robin_odd_roster_cex :
    (round_robin 3 none).map List.length = some 3 ∧
    handle_round_robin 3 3 ≠ none := by
  decide

/-- C9 amended, combined statement. -/
theorem round_robin_rounds_amended (N : ℕ) (r : ℤ) (hN : 2 ≤ N) (hr : 1 ≤ r) :
    (∃ L, round_robin N none = some L ∧ L.length = rrNumRounds N) ∧
    (handle_round_robin N r = none ↔ (rrNumRounds N : ℤ) < r) :=
  ⟨round_robin_length N hN, handle_round_robin_none_iff N r hN hr⟩

/-- Witness for the amended C9 theorem: with three competitors the schedule
    has rrNumRounds 3 = 3 rounds and requesting round 4 errors. -/
theorem round_robin_rounds_amended_witness :
    handle_round_robin 3 4 = none := by
  have h := round_robin_rounds_amended 3 4 (by norm_num) (by norm_num)
  exact h.2.mpr (by norm_num [rrNumRounds])

/-- On an even roster there is no bye padding, so the raw schedule is the
    even circle on N itself. -/
theorem round_robin_even_raw (N : ℕ) (h2 : 2 ≤ N) (he : N % 2 = 0) :
    round_robin N none = some (rrAux (N - 1) (List.range' 1 N)) := by
  unfold round_robin
  rw [if_neg (by omega)]
  dsimp only
  rw [if_neg (by omega)]
  have hl : (List.range' 1 N).length - 1 = N - 1 := by
    rw [List.length_range']
  rw [hl]

theorem get_map_range {α : Type} (f : ℕ → α) (m k : ℕ) (hk : k < m) :
    ((List.range m).map f).get? k = some (f k) := by
  rw [List.get?_map, List.get?_range hk]
  rfl

/-- Evaluating the round robin handler: a successful request for round r
    serves the closed form circle round k = r - 1, filtered for the default
    bye on an odd roster. -/
theorem handle_round_robin_eval (N : ℕ) (r : ℤ) (ps : List (ℕ × ℕ))
    (hN : 2 ≤ N) (hr : 1 ≤ r) (hps : handle_round_robin N r = some ps) :
    ∃ k : ℕ, (k : ℤ) = r - 1 ∧ k < rrNumRounds N ∧
      ((N % 2 = 0 ∧ ps = rrRound N k) ∨
       (N % 2 = 1 ∧ ps = (rrRound (N + 1) k).filter
          (fun p => decide (p.1 ≠ N + 1 ∧ p.2 ≠ N + 1)))) := by
  unfold handle_round_robin at hps
  by_cases hodd : N % 2 = 1
  · rw [round_robin_odd_raw N hN hodd] at hps
    dsimp only at hps
    rw [rrAux_length] at hps
    by_cases hc : (N : ℤ) ≤ r - 1
    · rw [if_pos hc] at hps
      exact absurd hps (by simp)
    · rw [if_neg hc] at hps
      have hcl : rrAux N (List.range' 1 (N + 1)) =
          (List.range N).map (rrRound (N + 1)) := rrAux_closed (N + 1) (by omega)
      have hklt : (r - 1).toNat < N := by omega
      have hidx : pyIndex (rrAux N (List.range' 1 (N + 1))) (r - 1) =
          some (rrRound (N + 1) (r - 1).toNat) := by
        rw [hcl]
        unfold pyIndex
        rw [if_pos (by omega)]
        exact get_map_range (rrRound (N + 1)) N (r - 1).toNat hklt
      rw [hidx] at hps
      dsimp only at hps
      rw [if_pos hodd] at hps
      refine ⟨(r - 1).toNat, by omega, ?_, Or.inr ⟨hodd, (Option.some.inj hps).symm⟩⟩
      unfold rrNumRounds
      rw [if_pos hodd]
      exact hklt
  · have he : N % 2 = 0 := by omega
    rw [round_robin_even_raw N hN he] at hps
    dsimp only at hps
    rw [rrAux_length] at hps
    by_cases hc : ((N - 1 : ℕ) : ℤ) ≤ r - 1
    · rw [if_pos hc] at hps
      exact absurd hps (by simp)
    · rw [if_neg hc] at hps
      have hcl : rrAux (N - 1) (List.range' 1 N) =
          (List.range (N - 1)).map (rrRound N) := rrAux_closed N hN
      have hklt : (r - 1).toNat < N - 1 := by omega
      have hidx : pyIndex (rrAux (N - 1) (List.range' 1 N)) (r - 1) =
          some (rrRound N (r - 1).toNat) := by
        rw [hcl]
        unfold pyIndex
        rw [if_pos (by omega)]
        exact get_map_range (rrRound N) (N - 1) (r - 1).toNat hklt
      rw [hidx] at hps
      dsimp only at hps
      rw [if_neg hodd] at hps
      refine ⟨(r - 1).toNat, by omega, ?_, Or.inl ⟨he, (Option.some.inj hps).symm⟩⟩
      unfold rrNumRounds
      rw [if_neg hodd]
      exact hklt

/-- Per round invariant of the round robin handler: no self pairings; on an
    even roster every competitor appears in exactly one pairing; on an odd
    roster exactly one competitor (the one facing the bye) sits out and
    every other competitor appears in exactly one pairing. -/
theorem rr_round_invariant (N : ℕ) (r : ℤ) (ps : List (ℕ × ℕ))
    (hN : 2 ≤ N) (hr : 1 ≤ r) (hps : handle_round_robin N r = some ps) :
    (∀ p ∈ ps, p.1 ≠ p.2) ∧
    (N % 2 = 0 → ∀ t, 1 ≤ t → t ≤ N → ps.countP (containsN t) = 1) ∧
    (N % 2 = 1 → ∃ t0, 1 ≤ t0 ∧ t0 ≤ N ∧ ∀ t, 1 ≤ t → t ≤ N →
      ps.countP (containsN t) = if t = t0 then 0 else 1) := by
  obtain ⟨k, hk, hklt, hcases⟩ := handle_round_robin_eval N r ps hN hr hps
  rcases hcases with ⟨he, rfl⟩ | ⟨ho, rfl⟩
  · exact ⟨rrRound_no_self N k hN he,
      fun _ t ht1 htN => rrRound_count N k t hN he ht1 htN,
      fun hodd => absurd he (by omega)⟩
  · obtain ⟨t0, ht01, ht0le, ht0ne, hcount⟩ :=
      rrRound_filter_count (N + 1) k (N + 1) (by omega) (by omega) (by omega)
        (le_refl _)
    refine ⟨?_, fun heven => absurd ho (by omega),
      fun _ => ⟨t0, ht01, by omega, fun t ht1 htN =>
        hcount t ht1 (by omega) (by omega)⟩⟩
    intro p hp
    exact rrRound_no_self (N + 1) k (by omega) (by omega) p (List.mem_filter.mp hp).1

/-! ## Movement engine: rotation fallback (api_routes.handle_rotation) -/

/-- Shallow embedding of api_routes.handle_rotation: fixed offset rotation
    pairing index i with index (i + offset) mod roster size for even i,
    skipping i when i + offset runs past the end.  A single entry would
    divide by zero in Python, modelled as none. -/
def handle_rotation (num_entries : ℕ) (new_round : ℤ) : Option (List (ℕ × ℕ)) :=
  let team_ids := List.range' 1 num_entries
  if team_ids.length - 1 = 0 then none
  else
    let offset := ((new_round - 1).emod ((team_ids.length : ℤ) - 1)).toNat
    some ((List.range' 0 ((team_ids.length + 1) / 2) 2).filterMap
      (fun i =>
        if i + offset < team_ids.length then
          some (team_ids.getD i 0, team_ids.getD ((i + offset) % team_ids.length) 0)
        else none))

/-- C7 counterexample: in the rotation fallback with four entries, round 4
    has offset 0 and pairs both competitors with themselves, and round 3
    has offset 2 and drops competitors 2 and 4 from the round entirely
    although neither is a bye. -/
theorem handle_rotation_violates_invariant :
    handle_rotation 4 4 = some [(1, 1), (3, 3)] ∧
    handle_rotation 4 3 = some [(1, 3)] := by
  decide

/-! ## Movement engine: knockout bracket (movements.knockout_bracket) -/

/-- Adjacent pairs of a list, the even indexed loop of the knockout round
    builder.  A trailing unpaired element cannot occur on power of two
    rosters. -/
def adjacentPairs : List ℤ → List (ℤ × ℤ)
  | a :: b :: rest => (a, b) :: adjacentPairs rest
  | _ => []

/-- While loop of movements.knockout_bracket: each round pairs adjacent
    entries with one based table numbers and advances the first entry of
    each pair as the placeholder winner.  The fuel starts at the roster
    size, which bounds the number of halvings. -/
def koAux : ℕ → List ℤ → List (List (ℕ × ℤ × ℤ))
  | 0, _ => []
  | fuel + 1, cur =>
    if cur.length ≤ 1 then []
    else
      let pairs := adjacentPairs cur
      (pairs.enum.map (fun q => (q.1 + 1, q.2))) :: koAux fuel (pairs.map Prod.fst)

/-- Shallow embedding of movements.knockout_bracket.  The random.shuffle
    call on the unseeded path reads the global RNG; its output is made an
    explicit argument, so the function is the code with the RNG draw
    factored out.  The seeded branch is pass in the source, so the roster
    is used in input order. -/
def knockout_bracket (team_ids : List ℤ) (seeded : Bool) (shuffled : List ℤ) :
    Option (List (List (ℕ × ℤ × ℤ))) :=
  if team_ids.length < 2 then none
  else if team_ids.length &&& (team_ids.length - 1) ≠ 0 then none
  else
    let teams := if seeded then team_ids else shuffled
    some (koAux teams.length teams)

/-- C10 counterexample: two legitimate RNG draws (two permutations of the
    same roster) give different brackets on the default unseeded path, so
    the bracket is not a function of the roster alone. -/
theorem knockout_bracket_rng_dependent :
    knockout_bracket [1, 2, 3, 4] false [1, 2, 3, 4] ≠
      knockout_bracket [1, 2, 3, 4] false [2, 1, 3, 4] ∧
    ([2, 1, 3, 4] : List ℤ).Perm [1, 2, 3, 4] := by
  decide

/-- C10 amended: with seeded set, knockout_bracket ignores the RNG draw
    entirely, so it is a deterministic function of the roster; the other
    engine operations contain no RNG call at all. -/
theorem knockout_bracket_seeded_deterministic (team_ids : List ℤ)
    (sh1 sh2 : List ℤ) :
    knockout_bracket team_ids true sh1 = knockout_bracket team_ids true sh2 := rfl

/-- Boolean test that a knockout pairing involves team t. -/
def containsZ (t : ℤ) (p : ℤ × ℤ) : Bool := decide (p.1 = t ∨ p.2 = t)

/-- Induction principle matching the two at a time recursion of
    adjacentPairs. -/
theorem twoStepInduction {α : Type} {P : List α → Prop} (h0 : P [])
    (h1 : ∀ a, P [a]) (h2 : ∀ a b rest, P rest → P (a :: b :: rest)) :
    ∀ l, P l := by
  have key : ∀ n (l : List α), l.length ≤ n → P l := by
    intro n
    induction n with
    | zero =>
      intro l hl
      have hnil : l = [] := List.eq_nil_of_length_eq_zero (by omega)
      rw [hnil]
      exact h0
    | succ n ih =>
      intro l hl
      match l with
      | [] => exact h0
      | [a] => exact h1 a
      | a :: b :: rest =>
        apply h2
        apply ih
        simp only [List.length_cons] at hl
        omega
  intro l
  exact key l.length l (le_refl _)

/-- Both members of an adjacent pair come from the paired list. -/
theorem adjacentPairs_mem (l : List ℤ) :
    ∀ p : ℤ × ℤ, p ∈ adjacentPairs l → p.1 ∈ l ∧ p.2 ∈ l := by
  induction l using twoStepInduction with
  | h0 =>
    intro p hp
    rw [show adjacentPairs ([] : List ℤ) = [] from rfl] at hp
    exact absurd hp (List.not_mem_nil p)
  | h1 a =>
    intro p hp
    rw [show adjacentPairs [a] = [] from rfl] at hp
    exact absurd hp (List.not_mem_nil p)
  | h2 a b rest ih =>
    intro p hp
    rw [show adjacentPairs (a :: b :: rest) = (a, b) :: adjacentPairs rest from rfl]
      at hp
    rcases List.mem_cons.mp hp with rfl | h
    · exact ⟨List.mem_cons_self a _, List.mem_cons_of_mem a (List.mem_cons_self b rest)⟩
    · obtain ⟨hm1, hm2⟩ := ih p h
      exact ⟨List.mem_cons_of_mem a (List.mem_cons_of_mem b hm1),
        List.mem_cons_of_mem a (List.mem_cons_of_mem b hm2)⟩

/-- A team absent from the list is in none of its adjacent pairs. -/
theorem adjacentPairs_countP_zero (t : ℤ) (l : List ℤ) (ht : t ∉ l) :
    (adjacentPairs l).countP (containsZ t) = 0 := by
  rw [List.countP_eq_zero]
  intro p hp
  simp only [containsZ, decide_eq_true_eq]
  rintro (h | h)
  · exact ht (by rw [← h]; exact (adjacentPairs_mem l p hp).1)
  · exact ht (by rw [← h]; exact (adjacentPairs_mem l p hp).2)

/-- On a duplicate free list of even length, every member is in exactly one
    adjacent pair. -/
theorem adjacentPairs_countP_one (t : ℤ) (l : List ℤ) :
    l.length % 2 = 0 → l.Nodup → t ∈ l →
    (adjacentPairs l).countP (containsZ t) = 1 := by
  induction l using twoStepInduction with
  | h0 =>
    intro _ _ ht
    exact absurd ht (List.not_mem_nil t)
  | h1 a =>
    intro hev _ _
    simp at hev
  | h2 a b rest ih =>
    intro hev hnd ht
    have hev2 : rest.length % 2 = 0 := by
      simp only [List.length_cons] at hev
      omega
    rcases List.nodup_cons.mp hnd with ⟨ha, hnd1⟩
    rcases List.nodup_cons.mp hnd1 with ⟨hb, hnd2⟩
    rw [show adjacentPairs (a :: b :: rest) = (a, b) :: adjacentPairs rest from rfl,
      List.countP_cons]
    rcases List.mem_cons.mp ht with rfl | ht1
    · rw [adjacentPairs_countP_zero t rest (fun hmem => ha (List.mem_cons_of_mem b hmem))]
      simp [containsZ]
    · rcases List.mem_cons.mp ht1 with rfl | ht2
      · rw [adjacentPairs_countP_zero t rest hb]
        simp [containsZ]
      · have hta : ¬(a = t) := fun h => ha (by rw [h]; exact List.mem_cons_of_mem b ht2)
        have htb : ¬(b = t) := fun h => hb (by rw [h]; exact ht2)
        rw [ih hev2 hnd2 ht2]
        have hfalse : containsZ t (a, b) = false := by
          simp only [containsZ, decide_eq_false_iff_not]
          rintro (h | h)
          · exact hta h
          · exact htb h
        rw [hfalse]
        simp

/-- On a duplicate free list no adjacent pair repeats one element. -/
theorem adjacentPairs_no_self (l : List ℤ) :
    l.Nodup → ∀ p ∈ adjacentPairs l, p.1 ≠ p.2 := by
  induction l using twoStepInduction with
  | h0 =>
    intro _ p hp
    rw [show adjacentPairs ([] : List ℤ) = [] from rfl] at hp
    exact absurd hp (List.not_mem_nil p)
  | h1 a =>
    intro _ p hp
    rw [show adjacentPairs [a] = [] from rfl] at hp
    exact absurd hp (List.not_mem_nil p)
  | h2 a b rest ih =>
    intro hnd p hp
    rcases List.nodup_cons.mp hnd with ⟨ha, hnd1⟩
    rw [show adjacentPairs (a :: b :: rest) = (a, b) :: adjacentPairs rest from rfl]
      at hp
    rcases List.mem_cons.mp hp with rfl | h
    · intro hab
      have hab2 : a = b := hab
      exact ha (by rw [hab2]; exact List.mem_cons_self b rest)
    · exact ih (List.nodup_cons.mp hnd1).2 p h

/-- One unfolding of the knockout while loop on a surviving field. -/
theorem koAux_succ (fuel : ℕ) (cur : List ℤ) (h2 : 2 ≤ cur.length) :
    koAux (fuel + 1) cur =
      ((adjacentPairs cur).enum.map (fun q => (q.1 + 1, q.2))) ::
        koAux fuel ((adjacentPairs cur).map Prod.fst) := by
  rw [koAux]
  rw [if_neg (by omega)]

/-- Counting pairings through the one based table numbering of a knockout
    round reduces to counting the underlying adjacent pairs. -/
theorem countP_enum_shift (l : List (ℤ × ℤ)) (p : ℤ × ℤ → Bool) :
    (l.enum.map (fun q => (q.1 + 1, q.2))).countP (fun q => p q.2) = l.countP p := by
  rw [List.countP_map]
  have h1 : ((fun q : ℕ × ℤ × ℤ => p q.2) ∘ (fun q : ℕ × (ℤ × ℤ) => (q.1 + 1, q.2)))
      = (p ∘ Prod.snd) := rfl
  rw [h1, ← List.countP_map, List.enum_map_snd]

/-- Opening round invariant of the knockout bracket on a duplicate free
    roster of even size: every roster team plays exactly one table and no
    table seats a team against itself. -/
theorem knockout_first_round (ids sh : List ℤ) (rounds : List (List (ℕ × ℤ × ℤ)))
    (hnd : ids.Nodup) (h2 : 2 ≤ ids.length) (hev : ids.length % 2 = 0)
    (hko : knockout_bracket ids true sh = some rounds) :
    ∃ first rest, rounds = first :: rest ∧
      (∀ t ∈ ids, first.countP (fun q => containsZ t q.2) = 1) ∧
      (∀ q ∈ first, q.2.1 ≠ q.2.2) := by
  unfold knockout_bracket at hko
  rw [if_neg (by omega)] at hko
  by_cases hpow : ids.length &&& (ids.length - 1) ≠ 0
  · rw [if_pos hpow] at hko
    exact absurd hko (by simp)
  · rw [if_neg hpow] at hko
    dsimp only at hko
    have hko2 : koAux ids.length ids = rounds := Option.some.inj hko
    obtain ⟨n, hn⟩ : ∃ n, ids.length = n + 1 + 1 := ⟨ids.length - 2, by omega⟩
    rw [hn] at hko2
    rw [koAux_succ (n + 1) ids (by omega)] at hko2
    refine ⟨(adjacentPairs ids).enum.map (fun q => (q.1 + 1, q.2)),
      koAux (n + 1) ((adjacentPairs ids).map Prod.fst), hko2.symm, ?_, ?_⟩
    · intro t ht
      exact (countP_enum_shift (adjacentPairs ids) (containsZ t)).trans
        (adjacentPairs_countP_one t ids hev hnd ht)
    · intro q hq
      obtain ⟨qp, hqp, rfl⟩ := List.mem_map.mp hq
      have hsnd : qp.2 ∈ adjacentPairs ids := by
        have h1 := List.mem_map_of_mem Prod.snd hqp
        rwa [List.enum_map_snd] at h1
      exact adjacentPairs_no_self ids hnd qp.2 hsnd

/-- C7 amended: the per round invariant (every real competitor in exactly
    one pairing of the round, or sitting out as the opponent of the bye; no
    competitor paired with itself) holds for every round the round robin
    handler serves and for the opening round of the seeded knockout bracket
    on a duplicate free roster of even size.  The unrestricted claim is
    false: the rotation fallback violates the invariant, see the
    counterexample. -/
theorem movement_round_invariant
    (N : ℕ) (r : ℤ) (ps : List (ℕ × ℕ))
    (ids sh : List ℤ) (rounds : List (List (ℕ × ℤ × ℤ)))
    (hN : 2 ≤ N) (hr : 1 ≤ r) (hps : handle_round_robin N r = some ps)
    (hnd : ids.Nodup) (h2i : 2 ≤ ids.length) (hev : ids.length % 2 = 0)
    (hko : knockout_bracket ids true sh = some rounds) :
    ((∀ p ∈ ps, p.1 ≠ p.2) ∧
     (N % 2 = 0 → ∀ t, 1 ≤ t → t ≤ N → ps.countP (containsN t) = 1) ∧
     (N % 2 = 1 → ∃ t0, 1 ≤ t0 ∧ t0 ≤ N ∧ ∀ t, 1 ≤ t → t ≤ N →
        ps.countP (containsN t) = if t = t0 then 0 else 1)) ∧
    (∃ first rest, rounds = first :: rest ∧
      (∀ t ∈ ids, first.countP (fun q => containsZ t q.2) = 1) ∧
      (∀ q ∈ first, q.2.1 ≠ q.2.2)) :=
  ⟨rr_round_invariant N r ps hN hr hps,
   knockout_first_round ids sh rounds hnd h2i hev hko⟩

/-- Witness instantiating the amended C7 theorem: the first round robin
    round of five competitors is served as two pairings in which competitor
    1 (who faces the bye) sits out and everyone else plays exactly once,
    and a seeded knockout on four teams opens with each team at exactly one
    table. -/
theorem movement_round_invariant_witness :
    (∀ p ∈ ([(2, 5), (3, 4)] : List (ℕ × ℕ)), p.1 ≠ p.2) ∧
    (∃ t0, 1 ≤ t0 ∧ t0 ≤ 5 ∧ ∀ t, 1 ≤ t → t ≤ 5 →
      ([(2, 5), (3, 4)] : List (ℕ × ℕ)).countP (containsN t) =
        if t = t0 then 0 else 1) ∧
    (∃ first rest,
      ([[(1, 1, 2), (2, 3, 4)], [(1, 1, 3)]] : List (List (ℕ × ℤ × ℤ))) =
        first :: rest ∧
      (∀ t ∈ ([1, 2, 3, 4] : List ℤ), first.countP (fun q => containsZ t q.2) = 1) ∧
      (∀ q ∈ first, q.2.1 ≠ q.2.2)) := by
  have h := movement_round_invariant 5 1 [(2, 5), (3, 4)] [1, 2, 3, 4] [1, 2, 3, 4]
    [[(1, 1, 2), (2, 3, 4)], [(1, 1, 3)]] (by norm_num) (by norm_num)
    (by decide) (by decide) (by decide) (by decide) (by decide)
  exact ⟨h.1.1, h.1.2.2 (by norm_num), h.2⟩

/-! ## Movement engine: Swiss pairing optimizer (movements.swiss_pairing)

The scipy milp call is external; its contract is to return a cost minimal
feasible 0-1 solution of the stated program.  The cost vector, the history
set and the one-pair-per-team equality constraints are code of
swiss_pairing and are embedded below; the solver is modelled as an
arbitrary cost minimal perfect matching.  Standings floats are modelled as
rationals. -/

/-- Input snapshot of swiss_pairing: roster, standings and previous
    opponents.  The Python dict lookups use a default of 0 and of the
    empty list, which makes both maps total. -/
structure SwissInput where
  team_ids : List ℤ
  standings : ℤ → ℚ
  previous_opponents : ℤ → List ℤ

/-- Roster size n of the pairing program. -/
def nTeams (inp : SwissInput) : ℕ := inp.team_ids.length

/-- Victory points of the team at roster index i, standings.get(id, 0). -/
def vpOf (inp : SwissInput) (i : ℕ) : ℚ := inp.standings (inp.team_ids.getD i 0)

/-- The pair of roster indices i and j is in the history set built by
    swiss_pairing: one of the two ids lists the other among its previous
    opponents (the source normalises to i below j and inserts both
    directions, which for a duplicate free roster is this symmetric
    membership). -/
def repeatPair (inp : SwissInput) (i j : ℕ) : Prop :=
  inp.team_ids.getD j 0 ∈ inp.previous_opponents (inp.team_ids.getD i 0) ∨
  inp.team_ids.getD i 0 ∈ inp.previous_opponents (inp.team_ids.getD j 0)

instance (inp : SwissInput) (i j : ℕ) : Decidable (repeatPair inp i j) := by
  unfold repeatPair
  infer_instance

/-- Cost entry of the milp objective for the pair of indices i and j: the
    huge penalty 1e6 on a rematch, the squared standings difference
    otherwise. -/
def pairCost (inp : SwissInput) (i j : ℕ) : ℚ :=
  if repeatPair inp i j then 1000000 else (vpOf inp i - vpOf inp j) ^ 2

/-- Feasible 0-1 solution of the milp constraints: a set of index pairs,
    each ordered below n, covering every index below n exactly once (the
    equality constraint A x = 1 of swiss_pairing). -/
def isPerfectMatching (n : ℕ) (M : Finset (ℕ × ℕ)) : Prop :=
  (∀ p ∈ M, p.1 < p.2 ∧ p.2 < n) ∧
  ∀ k, k < n → (M.filter (fun p => p.1 = k ∨ p.2 = k)).card = 1

instance (n : ℕ) (M : Finset (ℕ × ℕ)) : Decidable (isPerfectMatching n M) := by
  unfold isPerfectMatching
  infer_instance

/-- Objective value of a solution: sum of the selected pair costs. -/
def matchingCost (inp : SwissInput) (M : Finset (ℕ × ℕ)) : ℚ :=
  ∑ p ∈ M, pairCost inp p.1 p.2

/-- A solution that selects no pair from the history set. -/
def repeatFree (inp : SwissInput) (M : Finset (ℕ × ℕ)) : Prop :=
  ∀ p ∈ M, ¬ repeatPair inp p.1 p.2

instance (inp : SwissInput) (M : Finset (ℕ × ℕ)) : Decidable (repeatFree inp M) := by
  unfold repeatFree
  infer_instance

theorem pairCost_nonneg (inp : SwissInput) (i j : ℕ) : 0 ≤ pairCost inp i j := by
  unfold pairCost
  split
  · norm_num
  · positivity

theorem matchingCost_nonneg (inp : SwissInput) (M : Finset (ℕ × ℕ)) :
    0 ≤ matchingCost inp M :=
  Finset.sum_nonneg (fun p _ => pairCost_nonneg inp p.1 p.2)

/-- All ordered index pairs below n; every perfect matching is a subset. -/
def pairUniv (n : ℕ) : Finset (ℕ × ℕ) :=
  (Finset.range n ×ˢ Finset.range n).filter (fun p => p.1 < p.2)

theorem matching_subset_pairUniv {n : ℕ} {M : Finset (ℕ × ℕ)}
    (hM : isPerfectMatching n M) : M ⊆ pairUniv n := by
  intro p hp
  obtain ⟨h1, h2⟩ := hM.1 p hp
  simp only [pairUniv, Finset.mem_filter, Finset.mem_product, Finset.mem_range]
  exact ⟨⟨by omega, h2⟩, h1⟩

/-- C8 amended: when some repeat free perfect matching has total cost below
    the fixed penalty 1e6, every cost minimal solution of the swiss_pairing
    program is repeat free.  (The hypothesis cannot be dropped: see the
    counterexample, where the squared standings differences themselves
    exceed the penalty.) -/
theorem swiss_optimizer_avoids_repeats (inp : SwissInput) (M M0 : Finset (ℕ × ℕ))
    (hM : isPerfectMatching (nTeams inp) M)
    (hopt : ∀ Mp, isPerfectMatching (nTeams inp) Mp →
      matchingCost inp M ≤ matchingCost inp Mp)
    (hM0 : isPerfectMatching (nTeams inp) M0)
    (hfree : repeatFree inp M0)
    (hcost : matchingCost inp M0 < 1000000) :
    repeatFree inp M := by
  intro p hp hrep
  have hval : pairCost inp p.1 p.2 = 1000000 := if_pos hrep
  have hsingle : pairCost inp p.1 p.2 ≤ matchingCost inp M :=
    Finset.single_le_sum (fun q _ => pairCost_nonneg inp q.1 q.2) hp
  have hle : matchingCost inp M ≤ matchingCost inp M0 := hopt M0 hM0
  rw [hval] at hsingle
  linarith

/-- Trivial two team roster with empty history, for the witness. -/
def swissTrivInput : SwissInput where
  team_ids := [1, 2]
  standings := fun _ => 0
  previous_opponents := fun _ => []

/-- Witness instantiating the amended C8 theorem on the two team roster:
    the only perfect matching pairs the two teams, costs 0, and is repeat
    free. -/
theorem matchingCost_swissTriv : matchingCost swissTrivInput {(0, 1)} = 0 := by
  simp [matchingCost, pairCost, repeatPair, vpOf, swissTrivInput]

theorem swiss_optimizer_avoids_repeats_witness :
    repeatFree swissTrivInput {(0, 1)} := by
  apply swiss_optimizer_avoids_repeats swissTrivInput {(0, 1)} {(0, 1)}
  · decide
  · intro Mp _
    rw [matchingCost_swissTriv]
    exact matchingCost_nonneg swissTrivInput Mp
  · decide
  · decide
  · rw [matchingCost_swissTriv]
    norm_num

/-- Concrete swiss_pairing instance where the milp objective prefers a
    rematch: teams 1 and 2 stand at 0 VP and have met, teams 3 and 4 stand
    at 2000 VP and have met; any cross pairing costs 2 times 2000 squared
    which dwarfs the two rematch penalties. -/
def swissCexInput : SwissInput where
  team_ids := [1, 2, 3, 4]
  standings := fun t => if t = 3 ∨ t = 4 then 2000 else 0
  previous_opponents := fun t => if t = 1 then [2] else if t = 3 then [4] else []

/-- The matching the optimizer selects on the counterexample input. -/
def swissCexM : Finset (ℕ × ℕ) := {(0, 1), (2, 3)}

/-- The repeat free alternative matching on the counterexample input. -/
def swissCexM2 : Finset (ℕ × ℕ) := {(0, 2), (1, 3)}

/-- The third perfect matching of four indices. -/
def swissCexM3 : Finset (ℕ × ℕ) := {(0, 3), (1, 2)}

/-- There are exactly three perfect matchings of four indices. -/
theorem perfectMatching_four (M : Finset (ℕ × ℕ)) (hM : isPerfectMatching 4 M) :
    M = swissCexM ∨ M = swissCexM2 ∨ M = swissCexM3 := by
  have hall : ∀ Mp ∈ (pairUniv 4).powerset, isPerfectMatching 4 Mp →
      Mp = swissCexM ∨ Mp = swissCexM2 ∨ Mp = swissCexM3 := by decide
  exact hall M (Finset.mem_powerset.mpr (matching_subset_pairUniv hM)) hM

theorem cost_swissCexM : matchingCost swissCexInput swissCexM = 2000000 := by
  unfold matchingCost
  rw [show swissCexM = insert (0, 1) {(2, 3)} from rfl,
    Finset.sum_insert (by decide), Finset.sum_singleton]
  simp only [pairCost, repeatPair, vpOf, swissCexInput]
  norm_num

theorem cost_swissCexM2 : matchingCost swissCexInput swissCexM2 = 8000000 := by
  unfold matchingCost
  rw [show swissCexM2 = insert (0, 2) {(1, 3)} from rfl,
    Finset.sum_insert (by decide), Finset.sum_singleton]
  simp only [pairCost, repeatPair, vpOf, swissCexInput]
  norm_num

theorem cost_swissCexM3 : matchingCost swissCexInput swissCexM3 = 8000000 := by
  unfold matchingCost
  rw [show swissCexM3 = insert (0, 3) {(1, 2)} from rfl,
    Finset.sum_insert (by decide), Finset.sum_singleton]
  simp only [pairCost, repeatPair, vpOf, swissCexInput]
  norm_num

/-- C8 counterexample: on swissCexInput a repeat free perfect matching
    exists, yet the unique cost minimal solution contains two pairs from
    the history set, so the optimizer path (any exact milp solver) returns
    a matching with rematches. -/
theorem swiss_milp_prefers_repeat_cex :
    isPerfectMatching 4 swissCexM ∧
    (∀ Mp, isPerfectMatching 4 Mp →
      matchingCost swissCexInput swissCexM ≤ matchingCost swissCexInput Mp) ∧
    ¬ repeatFree swissCexInput swissCexM ∧
    isPerfectMatching 4 swissCexM2 ∧
    repeatFree swissCexInput swissCexM2 ∧
    (∀ Mp, isPerfectMatching 4 Mp → repeatFree swissCexInput Mp →
      matchingCost swissCexInput swissCexM < matchingCost swissCexInput Mp) := by
  refine ⟨by decide, ?_, by decide, by decide, by decide, ?_⟩
  · intro Mp hMp
    rcases perfectMatching_four Mp hMp with h | h | h <;> subst h
    · exact le_refl _
    · rw [cost_swissCexM, cost_swissCexM2]
      norm_num
    · rw [cost_swissCexM, cost_swissCexM3]
      norm_num
  · intro Mp hMp hfree
    rcases perfectMatching_four Mp hMp with h | h | h <;> subst h
    · exact absurd hfree (by decide)
    · rw [cost_swissCexM, cost_swissCexM2]
      norm_num
    · rw [cost_swissCexM, cost_swissCexM3]
      norm_num

end BridgeSpec
